import Mathlib

/-!
# Verification of the Housd event-siting pipeline (workstream 3)

Shallow embedding of the core spatial-reaggregation and scoring pipeline:

* `src/utils/geo.py` — `create_buffer`, `create_grid`, `_create_grid_coords_1d`,
  `reaggregate`;
* `src/utils/scoring.py` — `standardize`, `normalize`, `generate_index_score`;
* `src/event-siting.py` — `EventSitingModel._get_tracts_of_interest` (the
  z-score branch) and `EventSitingModel._standardize_projections`.

Numbers are modelled exactly: rationals for the purely arithmetic parts,
reals where the code takes a square root (standard deviations).  A pandas
float `NaN` is modelled as `Option.none`; pandas' `skipna` aggregation
(`sum`, `mean`, `std`, `min`, `max` skip missing values) is modelled by
aggregating over `List.reduceOption`.  Geometric primitives supplied by the
external geopandas/shapely backend (polygon overlay, reprojection, buffer,
union) are not code of this repository: the overlay's output is taken as
input data (a list of fragments), and reprojection/union are abstract
operations packaged in a structure, with the library facts a theorem needs
stated as explicit hypotheses.
-/

namespace Housd

/-! ## Areal reaggregation (`src/utils/geo.py`, `reaggregate`, lines 131-158)

`reaggregate` overlays the destination and source layers (`overlay(...,
how="union")`, an external shapely operation) and then works purely on the
resulting fragment table: it computes each fragment's area, groups by the
destination identifier to get `dst_unit_area`, divides to get
`fragment_area_pct`, multiplies each aggregation variable by that
percentage, and groups again, left-merging onto the destination layer.
The fragment table is the model's input: a fragment carries the destination
identifier it fell in (`none` for a fragment lying outside every
destination polygon: `groupby` drops those rows), its planar area
(shapely areas are nonnegative), and the value of one aggregation variable
(`none` for a fragment not covered by any source polygon: the union overlay
leaves the source columns `NaN` there).  The code handles every variable in
`agg_vars` by the same independent column arithmetic, so one variable
suffices. -/

/-- One row of `fragment_df` after the union overlay: destination id
(`none` = `NaN`), `fragment_area`, and one aggregation variable's value
(`none` = `NaN`). -/
structure Fragment where
  dst : Option Nat
  area : ℚ
  val : Option ℚ
deriving DecidableEq

/-- Float division as pandas performs it on this data: dividing by zero does
not produce a finite number (here the divisor is a sum of nonnegative areas,
so a zero divisor forces a `0 / 0 = NaN`). -/
def divNa (a b : ℚ) : Option ℚ := if b = 0 then none else some (a / b)

/-- Multiplication of possibly-missing floats: `NaN` propagates. -/
def mulNa : Option ℚ → Option ℚ → Option ℚ
  | some a, some b => some (a * b)
  | _, _ => none

/-- pandas `sum` with its default `skipna=True`: missing entries are dropped
and an all-missing group sums to `0.0`. -/
def sumNa (l : List (Option ℚ)) : ℚ := l.reduceOption.sum

/-- The rows `groupby(dst_id)` gathers for destination `d` (rows whose
`dst_id` is `NaN` are dropped by `groupby`, and the subsequent inner merge
keeps exactly the rows with a grouped destination id). -/
def fragsOf (frags : List Fragment) (d : Nat) : List Fragment :=
  frags.filter (fun f => f.dst = some d)

/-- `dst_unit_area`: the grouped sum of `fragment_area` for destination `d`. -/
def dstUnitArea (frags : List Fragment) (d : Nat) : ℚ :=
  ((fragsOf frags d).map Fragment.area).sum

/-- The `fragment_area_pct` column restricted to destination `d`'s rows:
`fragment_area / dst_unit_area`. -/
def fragmentAreaPct (frags : List Fragment) (d : Nat) : List (Option ℚ) :=
  (fragsOf frags d).map (fun f => divNa f.area (dstUnitArea frags d))

/-- The reaggregated value the output layer carries for destination `d`:
each fragment's variable is scaled by `fragment_area_pct`, the scaled values
are summed per destination, and the aggregate is left-merged onto the
destination layer (`none` = the `NaN` a destination with no fragments gets
from the left merge). -/
def reaggValue (frags : List Fragment) (d : Nat) : Option ℚ :=
  if fragsOf frags d = [] then none
  else
    some (sumNa ((fragsOf frags d).map
      (fun f => mulNa f.val (divNa f.area (dstUnitArea frags d)))))

theorem sumNa_map_some {α : Type} (l : List α) (g : α → ℚ) :
    sumNa (l.map fun a => some (g a)) = (l.map g).sum := by
  induction l with
  | nil => rfl
  | cons a t ih => simp [sumNa, List.reduceOption] at ih ⊢; exact ih

theorem sum_map_div {α : Type} (l : List α) (g : α → ℚ) (b : ℚ) :
    (l.map fun a => g a / b).sum = (l.map g).sum / b := by
  induction l with
  | nil => simp
  | cons a t ih => simp [ih, add_div]

theorem sum_map_mul_left {α : Type} (l : List α) (g : α → ℚ) (v : ℚ) :
    (l.map fun a => v * g a).sum = v * (l.map g).sum := by
  induction l with
  | nil => simp
  | cons a t ih => simp [ih, mul_add]

theorem sumNa_all_none (l : List (Option ℚ)) (h : ∀ x ∈ l, x = none) :
    sumNa l = 0 := by
  induction l with
  | nil => rfl
  | cons a t ih =>
    have ha : a = none := h a (List.mem_cons_self a t)
    subst ha
    simp only [sumNa, List.reduceOption_cons_of_none]
    exact ih fun x hx => h x (List.mem_cons_of_mem _ hx)

theorem all_zero_of_sum_zero {α : Type} (l : List α) (g : α → ℚ)
    (hpos : ∀ a ∈ l, 0 ≤ g a) (h : (l.map g).sum = 0) :
    ∀ a ∈ l, g a = 0 := by
  induction l with
  | nil => intro a ha; cases ha
  | cons a t ih =>
    intro b hb
    have ha : 0 ≤ g a := hpos a (List.mem_cons_self a t)
    have ht : 0 ≤ (t.map g).sum :=
      List.sum_nonneg (by
        intro x hx
        obtain ⟨y, hy, rfl⟩ := List.mem_map.mp hx
        exact hpos y (List.mem_cons_of_mem _ hy))
    have hsum : g a + (t.map g).sum = 0 := by simpa using h
    have ha0 : g a = 0 := by linarith
    have ht0 : (t.map g).sum = 0 := by linarith
    rcases List.mem_cons.mp hb with rfl | hb
    · exact ha0
    · exact ih (fun x hx => hpos x (List.mem_cons_of_mem _ hx)) ht0 b hb

/-- Claim C2: in `reaggregate`, for every destination polygon whose
`dst_unit_area` is non-zero, the sum of `fragment_area_pct` over all
fragments grouped under that destination's identifier equals `1` (the model
computes exactly, so the floating tolerance is equality). -/
theorem C2_fragment_area_pct_sums_to_one (frags : List Fragment) (d : Nat)
    (h : dstUnitArea frags d ≠ 0) :
    sumNa (fragmentAreaPct frags d) = 1 := by
  unfold fragmentAreaPct
  have hdiv : ∀ f : Fragment,
      divNa f.area (dstUnitArea frags d) = some (f.area / dstUnitArea frags d) := by
    intro f; simp [divNa, h]
  calc sumNa ((fragsOf frags d).map fun f => divNa f.area (dstUnitArea frags d))
      = sumNa ((fragsOf frags d).map fun f =>
          some (f.area / dstUnitArea frags d)) := by
        congr 1
        exact List.map_congr_left fun f _ => hdiv f
    _ = ((fragsOf frags d).map fun f => f.area / dstUnitArea frags d).sum :=
        sumNa_map_some _ _
    _ = ((fragsOf frags d).map Fragment.area).sum / dstUnitArea frags d :=
        sum_map_div _ _ _
    _ = 1 := div_self h

/-- Witness for C2: two fragments of areas 2 and 3 under destination 0; the
percentages sum to 1. -/
theorem C2_fragment_area_pct_sums_to_one_witness :
    dstUnitArea [⟨some 0, 2, some 7⟩, ⟨some 0, 3, some 1⟩] 0 ≠ 0 ∧
      sumNa (fragmentAreaPct [⟨some 0, 2, some 7⟩, ⟨some 0, 3, some 1⟩] 0) = 1 :=
  ⟨by norm_num [dstUnitArea, fragsOf],
    C2_fragment_area_pct_sums_to_one _ 0 (by norm_num [dstUnitArea, fragsOf])⟩

/-- Counterexample to claim C1 as stated: one source polygon carrying
`pop = 100` fully covers two equal-area destination cells (cells 0 and 1,
each wholly one fragment of area 1 with value 100).  `reaggregate` assigns
each cell `100`, not `50`, and the destination total `200` is not the source
total `100`: redistribution does not conserve mass. -/
theorem C1_counterexample :
    reaggValue [⟨some 0, 1, some 100⟩, ⟨some 1, 1, some 100⟩] 0 = some 100 ∧
      reaggValue [⟨some 0, 1, some 100⟩, ⟨some 1, 1, some 100⟩] 1 = some 100 ∧
      reaggValue [⟨some 0, 1, some 100⟩, ⟨some 1, 1, some 100⟩] 0 ≠ some 50 ∧
      (100 : ℚ) + 100 ≠ 100 := by
  refine ⟨?_, ?_, ?_, by norm_num⟩ <;>
    norm_num [reaggValue, fragsOf, dstUnitArea, divNa, mulNa, sumNa]

/-- Claim C1 as amended: `fragment_area_pct` weights by the share of the
destination unit's area, so `reaggregate` computes a destination-area-weighted
average of the overlapping source values, not a mass-preserving split: a
destination polygon whose fragments all carry the same source value `v`
(in particular one fully covered by a single source polygon of value `v`)
receives `v` itself. -/
theorem C1_full_cover_replicates_value (frags : List Fragment) (d : Nat) (v : ℚ)
    (hv : ∀ f ∈ fragsOf frags d, f.val = some v)
    (h : dstUnitArea frags d ≠ 0) :
    reaggValue frags d = some v := by
  have hne : fragsOf frags d ≠ [] := by
    intro hnil
    apply h
    simp [dstUnitArea, hnil]
  unfold reaggValue
  rw [if_neg hne]
  congr 1
  have hstep : ∀ f ∈ fragsOf frags d,
      mulNa f.val (divNa f.area (dstUnitArea frags d)) =
        some (v * (f.area / dstUnitArea frags d)) := by
    intro f hf
    rw [hv f hf]
    simp [divNa, h, mulNa]
  calc sumNa ((fragsOf frags d).map
        fun f => mulNa f.val (divNa f.area (dstUnitArea frags d)))
      = sumNa ((fragsOf frags d).map
          fun f => some (v * (f.area / dstUnitArea frags d))) := by
        congr 1
        exact List.map_congr_left hstep
    _ = ((fragsOf frags d).map fun f => v * (f.area / dstUnitArea frags d)).sum :=
        sumNa_map_some _ _
    _ = v * ((fragsOf frags d).map fun f => f.area / dstUnitArea frags d).sum :=
        sum_map_mul_left _ _ v
    _ = v * (((fragsOf frags d).map Fragment.area).sum / dstUnitArea frags d) := by
        rw [sum_map_div]
    _ = v := by
        rw [show ((fragsOf frags d).map Fragment.area).sum = dstUnitArea frags d
            from rfl, div_self h, mul_one]

/-- Witness for the amended C1: two equal-area cells fully covered by a
source value of 100 each receive 100. -/
theorem C1_full_cover_replicates_value_witness :
    (∀ f ∈ fragsOf [⟨some 0, 1, some 100⟩, ⟨some 1, 1, some 100⟩] 0,
        f.val = some 100) ∧
      dstUnitArea [⟨some 0, 1, some 100⟩, ⟨some 1, 1, some 100⟩] 0 ≠ 0 ∧
      reaggValue [⟨some 0, 1, some 100⟩, ⟨some 1, 1, some 100⟩] 0 = some 100 :=
  ⟨by simp [fragsOf], by norm_num [dstUnitArea, fragsOf],
    C1_full_cover_replicates_value _ 0 100 (by simp [fragsOf])
      (by norm_num [dstUnitArea, fragsOf])⟩

/-- Claim C3: if `dst_unit_area` is zero for some destination polygon, the
output value for that destination is still defined: either the fragments all
have zero area, every `fragment_area_pct` is the `0 / 0` missing value, the
redistributed products are all missing, and the skip-missing group sum
delivers a zero contribution; or the destination has no fragments at all and
the left merge delivers pandas' defined missing-value marker.  No arbitrary
finite garbage reaches the output layer. -/
theorem C3_zero_area_destination_defined (frags : List Fragment) (d : Nat)
    (hpos : ∀ f ∈ frags, 0 ≤ f.area)
    (h0 : dstUnitArea frags d = 0) :
    reaggValue frags d = some 0 ∨ reaggValue frags d = none := by
  by_cases hnil : fragsOf frags d = []
  · right; simp [reaggValue, hnil]
  · left
    unfold reaggValue
    rw [if_neg hnil]
    congr 1
    have hall : ∀ f ∈ fragsOf frags d,
        mulNa f.val (divNa f.area (dstUnitArea frags d)) = none := by
      intro f hf
      rw [h0]
      cases f.val <;> simp [divNa, mulNa]
    exact sumNa_all_none _ (by
      intro x hx
      obtain ⟨f, hf, rfl⟩ := List.mem_map.mp hx
      exact hall f hf)

/-- Witness for C3: a single zero-area fragment under destination 2 yields a
zero contribution. -/
theorem C3_zero_area_destination_defined_witness :
    (∀ f ∈ [(⟨some 2, 0, some 5⟩ : Fragment)], 0 ≤ f.area) ∧
      dstUnitArea [⟨some 2, 0, some 5⟩] 2 = 0 ∧
      (reaggValue [⟨some 2, 0, some 5⟩] 2 = some 0 ∨
        reaggValue [⟨some 2, 0, some 5⟩] 2 = none) :=
  ⟨by simp, by norm_num [dstUnitArea, fragsOf],
    C3_zero_area_destination_defined _ 2 (by simp)
      (by norm_num [dstUnitArea, fragsOf])⟩

/-! ## Grid builder (`src/utils/geo.py`, `create_grid` lines 29-86 and
`_create_grid_coords_1d` lines 89-108)

`create_grid` reprojects the reference layer to EPSG:3857, takes its
`total_bounds`, builds column coordinates with `_create_grid_coords_1d`
over `[min_x, max_x]` and row coordinates over `[min_y, max_y]` (then
reversed), and emits one square polygon per `(col, row)` pair with corners
`(x, y), (x+size, y), (x+size, y-size), (x, y-size)`, assigning
`cell_id = grid.index` (the zero-based emission order).  The model takes
the post-projection bounds as input (the claim's scenario fixes them in a
metric CRS) and builds the unfiltered grid. -/

/-- `numpy.arange(start, stop, step)` for a positive step: the values
`start + i * step` for `0 ≤ i < ⌈(stop - start) / step⌉`. -/
def arangeQ (start stop step : ℚ) : List ℚ :=
  (List.range (⌈(stop - start) / step⌉.toNat)).map fun i => start + (i : ℚ) * step

/-- `_create_grid_coords_1d`: round the lower bound down and the upper bound
up to `decimals` decimal places, then `arange` at `size` intervals. -/
def createGridCoords1d (start stop : ℚ) (size : ℚ) (decimals : ℕ) : List ℚ :=
  arangeQ ((⌊start * 10 ^ decimals⌋ : ℚ) / 10 ^ decimals)
    ((⌈stop * 10 ^ decimals⌉ : ℚ) / 10 ^ decimals) size

/-- A grid cell: the polygon's corner ring and the `cell_id` column. -/
structure GridCell where
  corners : List (ℚ × ℚ)
  cell_id : ℕ
deriving DecidableEq

/-- The square polygon `create_grid` appends for column `x` and row `y`. -/
def cellPolygon (x y size : ℚ) : List (ℚ × ℚ) :=
  [(x, y), (x + size, y), (x + size, y - size), (x, y - size)]

/-- The grid `create_grid` emits before the optional filter step, given the
layer's `total_bounds` in EPSG:3857: rows are reversed (top-left start), the
outer loop runs over columns, and `cell_id` is the dataframe index, i.e. the
position in emission order. -/
def createGridUnfiltered (minX minY maxX maxY size : ℚ) : List GridCell :=
  let cols := createGridCoords1d minX maxX size 2
  let rows := (createGridCoords1d minY maxY size 2).reverse
  let polys := cols.flatMap fun x => rows.map fun y => cellPolygon x y size
  polys.enum.map fun p => ⟨p.2, p.1⟩

/-- Claim C7: for a reference polygon spanning x ∈ [0, 2000], y ∈ [0, 1000]
in a metric CRS and cell size 1000, `create_grid` emits exactly 2 cells
before filtering, each a 1000×1000 square (the two squares with top-left
corners (0, 0) and (1000, 0)), with `cell_id` values 0 and 1: unique and
dense in emission order. -/
theorem C7_grid_two_cells :
    createGridUnfiltered 0 0 2000 1000 1000 =
      [⟨cellPolygon 0 0 1000, 0⟩, ⟨cellPolygon 1000 0 1000, 1⟩] ∧
      (createGridUnfiltered 0 0 2000 1000 1000).map GridCell.cell_id =
        List.range (createGridUnfiltered 0 0 2000 1000 1000).length := by
  have h1 : createGridCoords1d 0 2000 1000 2 = [0, 1000] := by
    norm_num [createGridCoords1d, arangeQ]
    rw [show Int.toNat 2 = 2 from rfl]
    simp [List.range_succ]
  have h2 : createGridCoords1d 0 1000 1000 2 = [0] := by
    norm_num [createGridCoords1d, arangeQ]
    simp [List.range_succ]
  constructor
  · simp only [createGridUnfiltered, h1, h2]
    simp [List.enum, cellPolygon]
  · simp only [createGridUnfiltered, h1, h2]
    simp [List.enum, List.range_succ]

/-! ## Buffer generator (`src/utils/geo.py`, `create_buffer` lines 6-26)

`create_buffer` records the source CRS, reprojects to EPSG:3857, buffers
every polygon by `size_in_meters` (EPSG:3857's unit is the metre, so the
radius is interpreted in metres whatever the input CRS's unit), dissolves
with `unary_union`, wraps the resulting single geometry in a fresh
`GeoSeries` and reprojects back to the source CRS.  Reprojection, buffering
and union are external geopandas/shapely operations: they are abstract
operations here, and the library facts a theorem relies on (`unary_union`
of a non-empty series yields one geometry and of an empty series yields
`None`, which `GeoSeries(None)` turns into an empty series; reprojection
composes) are explicit hypotheses. -/

/-- The geometry operations the external geopandas backend supplies:
`toCrs source target geom`, `buffer radius geom` (radius in the units of the
geometry's current CRS), and `unionAll` (`unary_union`, `none` on empty). -/
structure GeoOps (G : Type) where
  toCrs : ℤ → ℤ → G → G
  buffer : ℚ → G → G
  unionAll : List G → Option G

/-- A geopandas layer: a CRS code and the geometry column. -/
structure GeoLayer (G : Type) where
  crs : ℤ
  geoms : List G

/-- `create_buffer`: buffer in EPSG:3857 by `size_in_meters`, dissolve, wrap
the single union geometry in a one-record series (or an empty series when
`unary_union` returned `None`), reproject back to the source CRS. -/
def create_buffer {G : Type} (ops : GeoOps G) (layer : GeoLayer G)
    (size_in_meters : ℚ) : GeoLayer G :=
  match ops.unionAll (layer.geoms.map fun g =>
      ops.buffer size_in_meters (ops.toCrs layer.crs 3857 g)) with
  | none => ⟨layer.crs, []⟩
  | some u => ⟨layer.crs, [ops.toCrs 3857 layer.crs u]⟩

/-- Claim C8: `create_buffer` returns exactly one record for a non-empty
input layer and an empty layer for an empty input, restores the input CRS,
and buffers in EPSG:3857 metres regardless of the input's original CRS
units: re-expressing the same geometries in any other CRS yields the same
buffered union once both outputs are compared in EPSG:3857.  Hypotheses:
`unary_union` is `None` exactly on an empty series, and reprojection
composes. -/
theorem C8_create_buffer_shape (G : Type) (ops : GeoOps G) (layer : GeoLayer G)
    (size : ℚ) (crs' : ℤ)
    (hu : ∀ l : List G, ops.unionAll l = none ↔ l = [])
    (hcomp : ∀ a b c : ℤ, ∀ g : G, ops.toCrs b c (ops.toCrs a b g) = ops.toCrs a c g) :
    (layer.geoms ≠ [] → (create_buffer ops layer size).geoms.length = 1) ∧
      (layer.geoms = [] → (create_buffer ops layer size).geoms = []) ∧
      (create_buffer ops layer size).crs = layer.crs ∧
      (create_buffer ops
            ⟨crs', layer.geoms.map (ops.toCrs layer.crs crs')⟩ size).geoms.map
          (ops.toCrs crs' 3857) =
        (create_buffer ops layer size).geoms.map (ops.toCrs layer.crs 3857) := by
  have hmaps :
      (layer.geoms.map (ops.toCrs layer.crs crs')).map
          (fun g => ops.buffer size (ops.toCrs crs' 3857 g)) =
        layer.geoms.map fun g => ops.buffer size (ops.toCrs layer.crs 3857 g) := by
    rw [List.map_map]
    exact List.map_congr_left fun g _ => by simp [Function.comp, hcomp]
  refine ⟨?_, ?_, ?_, ?_⟩
  · intro hne
    cases hcase : ops.unionAll (layer.geoms.map fun g =>
        ops.buffer size (ops.toCrs layer.crs 3857 g)) with
    | none => exact absurd (by simpa using (hu _).mp hcase) hne
    | some u => simp [create_buffer, hcase]
  · intro hnil
    have h0 : ops.unionAll (layer.geoms.map fun g =>
        ops.buffer size (ops.toCrs layer.crs 3857 g)) = none := by
      rw [hu]; simp [hnil]
    simp [create_buffer, h0]
  · cases hcase : ops.unionAll (layer.geoms.map fun g =>
        ops.buffer size (ops.toCrs layer.crs 3857 g)) with
    | none => simp [create_buffer, hcase]
    | some u => simp [create_buffer, hcase]
  · unfold create_buffer
    simp only [hmaps]
    cases ops.unionAll (layer.geoms.map fun g =>
        ops.buffer size (ops.toCrs layer.crs 3857 g)) with
    | none => rfl
    | some u => simp [hcomp]

/-- Witness for C8: a toy backend on `G = ℚ` (identity reprojections,
buffering adds the radius, `unary_union` keeps the head) satisfies the two
library hypotheses, and a one-record layer yields a one-record buffer. -/
theorem C8_create_buffer_shape_witness :
    (create_buffer ⟨fun _ _ g => g, fun s g => g + s, List.head?⟩
        (⟨4326, [3]⟩ : GeoLayer ℚ) 2).geoms.length = 1 ∧
      (create_buffer ⟨fun _ _ g => g, fun s g => g + s, List.head?⟩
          (⟨4326, ([] : List ℚ)⟩ : GeoLayer ℚ) 2).geoms = [] ∧
      (create_buffer ⟨fun _ _ g => g, fun s g => g + s, List.head?⟩
          (⟨4326, [3]⟩ : GeoLayer ℚ) 2).crs = 4326 := by
  have hu : ∀ l : List ℚ, List.head? l = none ↔ l = [] := by
    intro l; cases l <;> simp
  have h1 := C8_create_buffer_shape ℚ ⟨fun _ _ g => g, fun s g => g + s, List.head?⟩
    ⟨4326, [3]⟩ 2 4326 hu (fun _ _ _ _ => rfl)
  have h2 := C8_create_buffer_shape ℚ ⟨fun _ _ g => g, fun s g => g + s, List.head?⟩
    ⟨4326, []⟩ 2 4326 hu (fun _ _ _ _ => rfl)
  exact ⟨h1.1 (by simp), h2.2.1 rfl, h1.2.2.1⟩

/-! ## CRS normalisation (`src/event-siting.py`,
`EventSitingModel._standardize_projections` lines 164-175)

The method loops `for gdf in [self.tracts, self.pois, self.grid]`, and when
a layer's CRS differs from the target it computes `gdf.to_crs(target_epsg)`
— but assigns the result to the loop-local name `gdf` only.  No attribute
of `self` is ever assigned, so the computed reprojections are discarded.
The model returns both the state of the object after the call and the list
of loop-local values the body computed. -/

/-- The spatial attributes of `EventSitingModel` the loop iterates over. -/
structure SitingState (G : Type) where
  tracts : GeoLayer G
  pois : GeoLayer G
  grid : GeoLayer G

/-- Reproject a whole layer (`GeoDataFrame.to_crs`). -/
def layerToCrs {G : Type} (ops : GeoOps G) (target : ℤ) (layer : GeoLayer G) :
    GeoLayer G :=
  ⟨target, layer.geoms.map (ops.toCrs layer.crs target)⟩

/-- `_standardize_projections`: the loop body `gdf = gdf.to_crs(target_epsg)`
rebinds the loop-local `gdf`; `self.tracts`, `self.pois` and `self.grid` are
never assigned.  The first component is the object's state after the call,
the second the sequence of values the loop-local held after each iteration. -/
def standardize_projections {G : Type} (ops : GeoOps G) (s : SitingState G)
    (target_epsg : ℤ) : SitingState G × List (GeoLayer G) :=
  (s, [s.tracts, s.pois, s.grid].map fun gdf =>
    if gdf.crs ≠ target_epsg then layerToCrs ops target_epsg gdf else gdf)

/-- Claim C10: `_standardize_projections` never changes the model's stored
layers: for every combination of input CRSs the `tracts`, `pois` and `grid`
attributes are the same objects with the same CRS after the call as before,
while the reprojected layers the loop computed are bound only to the
loop-local variable (the second component). -/
theorem C10_standardize_projections_no_mutation (G : Type) (ops : GeoOps G)
    (s : SitingState G) (target_epsg : ℤ) :
    (standardize_projections ops s target_epsg).1 = s ∧
      (standardize_projections ops s target_epsg).1.tracts.crs = s.tracts.crs ∧
      (standardize_projections ops s target_epsg).1.pois.crs = s.pois.crs ∧
      (standardize_projections ops s target_epsg).1.grid.crs = s.grid.crs ∧
      (standardize_projections ops s target_epsg).2 =
        [s.tracts, s.pois, s.grid].map fun gdf =>
          if gdf.crs ≠ target_epsg then layerToCrs ops target_epsg gdf else gdf :=
  ⟨rfl, rfl, rfl, rfl, rfl⟩

/-! ## Outlier-tract selection, z-score branch (`src/event-siting.py`,
`EventSitingModel._get_tracts_of_interest` lines 177-210)

The method's docstring promises: "If min_zscore is provided, then tracts of
interest are tracts that are more than the min number of standard
deviations away from the mean."  The code instead computes the *scalar*
`zscore = hloss_mean / hloss_std` (county mean divided by county standard
deviation — a single float, the same for every tract) and evaluates
`tract_data[zscore > min_zscore]` — a condition that does not depend on any
individual tract's value (indexing a DataFrame with a scalar boolean is not
a per-row mask at all; pandas raises a `KeyError`).  We model the scalar
condition the code computes; all no-tract-dependence and divergence facts
follow from it.  pandas statistics use `ddof=1` (the sample standard
deviation); a series of length ≤ 1 has `std = NaN`, and comparisons with
`NaN` are false, as are comparisons of a `-inf` or `NaN` quotient when the
standard deviation is zero, while a `+inf` quotient exceeds any finite
threshold. -/

/-- The mean of a float column (`Series.mean`). -/
noncomputable def seriesMean (l : List ℝ) : ℝ := l.sum / l.length

/-- The sample variance of a float column (`Series.var`, `ddof=1`). -/
noncomputable def seriesVar (l : List ℝ) : ℝ :=
  (l.map fun x => (x - seriesMean l) ^ 2).sum / ((l.length : ℝ) - 1)

/-- The sample standard deviation (`Series.std`): `NaN` for length ≤ 1. -/
noncomputable def seriesStd (l : List ℝ) : Option ℝ :=
  if l.length ≤ 1 then none else some (Real.sqrt (seriesVar l))

/-- The condition the code's z-score branch evaluates, identically for every
tract of the county: `hloss_mean / hloss_std > min_zscore` with float
semantics (`NaN` and `-inf` compare false, `+inf` compares true). -/
def codeZscoreCondition (l : List ℝ) (t : ℝ) : Prop :=
  match seriesStd l with
  | none => False
  | some s => (s = 0 ∧ 0 < seriesMean l) ∨ (s ≠ 0 ∧ seriesMean l / s > t)

/-- The selection rule the claim and the method's own docstring state
(modelled from the spec for comparison with `codeZscoreCondition`): keep a
tract exactly when its individual z-score `(value - mean) / std` exceeds
the threshold. -/
def specZscoreKeeps (l : List ℝ) (x t : ℝ) : Prop :=
  match seriesStd l with
  | none => False
  | some s => s ≠ 0 ∧ (x - seriesMean l) / s > t

theorem seriesStd_four (a b c d : ℝ) :
    seriesStd [a, b, c, d] =
      some (Real.sqrt (seriesVar [a, b, c, d])) := by
  simp [seriesStd]

/-- Claim C4 is a code bug: at county tract values `[1, 1, 1, 10]` with
`min_zscore = 1`, the code's scalar condition `mean / std > 1` is false
(`(13/4) / (9/2) = 13/18 < 1`), so no tract whatsoever is selected — the
condition cannot depend on the tract — while the documented per-tract rule
keeps the tract with value `10` (z-score `3/2 > 1`) and drops the tracts
with value `1` (z-score `-1/2 ≤ 1`). -/
theorem C4_zscore_branch_divergence :
    ¬ codeZscoreCondition [1, 1, 1, 10] 1 ∧
      specZscoreKeeps [1, 1, 1, 10] 10 1 ∧
      ¬ specZscoreKeeps [1, 1, 1, 10] 1 1 := by
  have hmean : seriesMean [1, 1, 1, 10] = 13 / 4 := by
    norm_num [seriesMean]
  have hvar : seriesVar [1, 1, 1, 10] = 81 / 4 := by
    norm_num [seriesVar, hmean]
  have hstd : seriesStd [1, 1, 1, 10] = some (9 / 2) := by
    rw [seriesStd_four, hvar, show (81 : ℝ) / 4 = (9 / 2) ^ 2 by norm_num,
      Real.sqrt_sq (by norm_num)]
  refine ⟨?_, ?_, ?_⟩
  · intro hcond
    unfold codeZscoreCondition at hcond
    rw [hstd] at hcond
    rcases hcond with ⟨h0, _⟩ | ⟨_, hgt⟩
    · norm_num at h0
    · rw [hmean] at hgt; norm_num at hgt
  · unfold specZscoreKeeps
    rw [hstd, hmean]
    exact ⟨by norm_num, by norm_num⟩
  · intro hkeep
    unfold specZscoreKeeps at hkeep
    rw [hstd, hmean] at hkeep
    rcases hkeep with ⟨_, hgt⟩
    norm_num at hgt

/-! ## Composite scorer (`src/utils/scoring.py`)

`standardize` is `(ds - ds.mean()) / ds.std()`, `normalize` is
`(ds - ds.min()) / (ds.max() - ds.min())`, and `generate_index_score`
assigns `df[var] = std_func(df[var])` (negated for negative-list columns)
for every listed column — an in-place mutation of the caller's dataframe —
then returns `df[all_vars].mean(axis=1)`.  pandas statistics skip missing
values; an operation on a missing value stays missing; a `0 / 0` is the
missing value.  A column with zero sample standard deviation consists of
equal non-missing values, so every standardized entry is `(x - x) / 0 =
0 / 0`, missing — the same holds for `normalize` when `max = min`. -/

/-- A float column: one cell per row, `none` = `NaN`. -/
abbrev Col := List (Option ℝ)

/-- The non-missing values of a column, in order (what pandas' `skipna`
statistics aggregate over). -/
def colVals (c : Col) : List ℝ := c.reduceOption

/-- `Series.mean` of a possibly-missing column: `NaN` when every value is
missing. -/
noncomputable def meanCol (c : Col) : Option ℝ :=
  if colVals c = [] then none
  else some ((colVals c).sum / (colVals c).length)

/-- `standardize` (`scoring.py` lines 4-15): element-wise
`(x - mean) / std` with the sample standard deviation over the non-missing
values; missing stays missing, and a zero or undefined standard deviation
makes every entry the `0 / 0` missing value. -/
noncomputable def standardize (c : Col) : Col :=
  c.map fun x? => x?.bind fun x =>
    match seriesStd (colVals c) with
    | none => none
    | some s => if s = 0 then none else some ((x - seriesMean (colVals c)) / s)

/-- `normalize` (`scoring.py` lines 18-28): element-wise
`(x - min) / (max - min)`; missing stays missing, and `max = min` (all
non-missing values equal) makes every entry the `0 / 0` missing value. -/
noncomputable def normalize (c : Col) : Col :=
  c.map fun x? => x?.bind fun x =>
    match (colVals c).min?, (colVals c).max? with
    | some m, some M => if M - m = 0 then none else some ((x - m) / (M - m))
    | _, _ => none

/-- The `std_method` argument of `generate_index_score`. -/
inductive StdMethod
  | standardize
  | normalize

/-- The function `std_func_all[std_method]` selects. -/
noncomputable def stdFunc : StdMethod → Col → Col
  | .standardize => standardize
  | .normalize => normalize

/-- A dataframe: named float columns. -/
abbrev Frame := List (String × Col)

/-- `df[v]`: the column named `v`. -/
def getCol (df : Frame) (v : String) : Col := (df.lookup v).getD []

/-- `df[v] = c`: replace the column named `v` (append it when absent). -/
def setCol (df : Frame) (v : String) (c : Col) : Frame :=
  if (df.lookup v).isSome then
    df.map fun p => if p.1 = v then (v, c) else p
  else df ++ [(v, c)]

/-- `df[var] = -df[var]`: element-wise negation, missing stays missing. -/
def negCol (c : Col) : Col := c.map (Option.map Neg.neg)

/-- The `for var in all_vars` loop of `generate_index_score`: standardize
each listed column in place, flipping the sign for negative-list columns. -/
noncomputable def scoreLoop (m : StdMethod) (negs : List String) :
    Frame → List String → Frame
  | df, [] => df
  | df, v :: rest =>
      scoreLoop m negs
        (setCol df v
          (if v ∈ negs then negCol (stdFunc m (getCol df v))
           else stdFunc m (getCol df v))) rest

/-- The dataframe's row count (all columns share one index). -/
def nRows (df : Frame) : ℕ :=
  match df with
  | [] => 0
  | p :: _ => p.2.length

/-- The value of `df[v]` at row `r` (missing when out of range). -/
def rowVal (df : Frame) (v : String) (r : ℕ) : Option ℝ :=
  ((getCol df v).get? r).join

/-- One entry of `df[vars].mean(axis=1)`: the row-wise mean over the listed
columns, skipping missing values (`NaN` when every listed value is
missing). -/
noncomputable def rowMean (df : Frame) (vars : List String) (r : ℕ) : Option ℝ :=
  meanCol (vars.map fun v => rowVal df v r)

/-- `generate_index_score` (`scoring.py` lines 31-62): the Python function
mutates the caller's dataframe in place and returns the row-wise mean of
the listed (now same-direction) columns.  The model returns the pair
(dataframe as the caller sees it after the call, returned score series). -/
noncomputable def generate_index_score (df : Frame) (pos_vars neg_vars : List String)
    (std_method : StdMethod) : Frame × Col :=
  (scoreLoop std_method neg_vars df (pos_vars ++ neg_vars),
    (List.range (nRows (scoreLoop std_method neg_vars df (pos_vars ++ neg_vars)))).map
      fun r => rowMean (scoreLoop std_method neg_vars df (pos_vars ++ neg_vars))
        (pos_vars ++ neg_vars) r)

theorem sum_eq_length_mul {l : List ℝ} {v : ℝ} (h : ∀ x ∈ l, x = v) :
    l.sum = l.length * v := by
  induction l with
  | nil => simp
  | cons a t ih =>
    have ha : a = v := h a (List.mem_cons_self a t)
    have ht : t.sum = t.length * v :=
      ih fun x hx => h x (List.mem_cons_of_mem _ hx)
    simp [ha, ht]
    ring

theorem constant_seriesStd {l : List ℝ} {v : ℝ} (hlen : 2 ≤ l.length)
    (hconst : ∀ x ∈ l, x = v) : seriesStd l = some 0 := by
  have hn : (0 : ℝ) < l.length := by
    have : (0 : ℕ) < l.length := by omega
    exact_mod_cast this
  have hm : seriesMean l = v := by
    unfold seriesMean
    rw [sum_eq_length_mul hconst]
    field_simp
  have hv : seriesVar l = 0 := by
    unfold seriesVar
    rw [hm]
    rw [List.sum_eq_zero, zero_div]
    intro t ht
    obtain ⟨x, hx, rfl⟩ := List.mem_map.mp ht
    rw [hconst x hx]
    ring
  unfold seriesStd
  rw [if_neg (by omega), hv, Real.sqrt_zero]

theorem standardize_constant {l : Col} {v : ℝ}
    (hlen : 2 ≤ (colVals l).length) (hconst : ∀ x ∈ colVals l, x = v) :
    standardize l = l.map fun _ => none := by
  unfold standardize
  refine List.map_congr_left fun x? _ => ?_
  simp only [constant_seriesStd hlen hconst]
  cases x? <;> simp

/-- Counterexample to claim C5 as stated: standardizing the constant column
`[5, 5]` produces the missing value (`0 / 0`, pandas `NaN`) for every
element, not `0`, and `generate_index_score` on a frame whose only listed
column is that constant column returns a missing score for every row rather
than a defined one. -/
theorem C5_counterexample :
    standardize [some 5, some 5] ≠ [some 0, some 0] ∧
      standardize [some 5, some 5] = [none, none] ∧
      (generate_index_score [("a", [some (5 : ℝ), some 5])] ["a"] []
          .standardize).2 = [none, none] := by
  have hstdz : standardize [some (5 : ℝ), some 5] = [none, none] := by
    have h := standardize_constant (l := [some (5 : ℝ), some 5]) (v := 5)
      (by simp [colVals]) (by simp [colVals])
    simpa using h
  refine ⟨by rw [hstdz]; simp, hstdz, ?_⟩
  have hloop : scoreLoop .standardize [] [("a", [some (5 : ℝ), some 5])]
      (["a"] ++ []) = [("a", [none, none])] := by
    simp [scoreLoop, setCol, getCol, stdFunc, hstdz]
  simp only [generate_index_score, hloop]
  simp [nRows, rowMean, rowVal, getCol, meanCol, colVals, List.range_succ]

/-- Claim C5 as amended: z-score standardization of a constant column (at
least two non-missing values, all equal) yields the missing value for every
element — not `0` — and `generate_index_score` with `std_method =
"standardize"` on a frame whose single listed column is constant returns a
missing (undefined) score for every row; the missing values do not crash
the pipeline but no defined score is produced. -/
theorem C5_constant_column_all_missing (l : Col) (v : ℝ)
    (hlen : 2 ≤ (colVals l).length) (hconst : ∀ x ∈ colVals l, x = v) :
    standardize l = (l.map fun _ => none) ∧
      (generate_index_score [("a", l)] ["a"] [] .standardize).2 =
        (List.range l.length).map fun _ => none := by
  have hstdz := standardize_constant hlen hconst
  refine ⟨hstdz, ?_⟩
  have hloop : scoreLoop .standardize [] [("a", l)] (["a"] ++ []) =
      [("a", l.map fun _ => none)] := by
    simp [scoreLoop, setCol, getCol, stdFunc, hstdz]
  simp only [generate_index_score, hloop]
  have hrv : ∀ r, rowVal [("a", l.map fun _ => none)] "a" r = none := by
    intro r
    simp only [rowVal, getCol, List.lookup, beq_self_eq_true, Option.getD_some,
      List.get?_map]
    cases l.get? r <;> simp
  have hnr : nRows [("a", l.map fun _ => (none : Option ℝ))] = l.length := by
    simp [nRows]
  rw [hnr]
  refine List.map_congr_left fun r _ => ?_
  simp only [rowMean, List.append_nil, List.map_cons, List.map_nil, hrv]
  simp [meanCol, colVals]

/-- Witness for the amended C5: the constant column `[3, 3]`. -/
theorem C5_constant_column_all_missing_witness :
    2 ≤ (colVals [some (3 : ℝ), some 3]).length ∧
      standardize [some (3 : ℝ), some 3] = [none, none] ∧
      (generate_index_score [("a", [some (3 : ℝ), some 3])] ["a"] []
          .standardize).2 = [none, none] := by
  have h := C5_constant_column_all_missing [some (3 : ℝ), some 3] 3
    (by simp [colVals]) (by simp [colVals])
  refine ⟨by simp [colVals], by simpa using h.1, ?_⟩
  have := h.2
  simpa [List.range_succ] using this

theorem lookup_replace_ne (df : Frame) (v j : String) (c : Col) (h : j ≠ v) :
    (df.map fun p => if p.1 = v then (v, c) else p).lookup j = df.lookup j := by
  induction df with
  | nil => rfl
  | cons p t ih =>
    rcases p with ⟨a, b⟩
    by_cases ha : a = v
    · subst ha
      simp only [List.map_cons, eq_self_iff_true, if_true]
      simp [List.lookup, beq_eq_false_iff_ne.mpr h, ih]
    · simp only [List.map_cons, if_neg ha]
      by_cases haj : a = j
      · subst haj
        simp [List.lookup]
      · simp [List.lookup, beq_eq_false_iff_ne.mpr (Ne.symm haj), ih]

theorem lookup_append_one_ne (df : Frame) (v j : String) (c : Col) (h : j ≠ v) :
    (df ++ [(v, c)]).lookup j = df.lookup j := by
  induction df with
  | nil => simp [List.lookup, beq_eq_false_iff_ne.mpr h]
  | cons p t ih =>
    rcases p with ⟨a, b⟩
    by_cases haj : a = j
    · subst haj
      simp [List.lookup]
    · simp [List.lookup, beq_eq_false_iff_ne.mpr (Ne.symm haj), ih]

theorem getCol_setCol_ne (df : Frame) (v j : String) (c : Col) (h : j ≠ v) :
    getCol (setCol df v c) j = getCol df j := by
  unfold getCol setCol
  by_cases hs : (df.lookup v).isSome
  · rw [if_pos hs, lookup_replace_ne df v j c h]
  · rw [if_neg hs, lookup_append_one_ne df v j c h]

theorem getCol_scoreLoop_not_mem (m : StdMethod) (negs : List String)
    (vars : List String) (df : Frame) (j : String) (hj : j ∉ vars) :
    getCol (scoreLoop m negs df vars) j = getCol df j := by
  induction vars generalizing df with
  | nil => rfl
  | cons v rest ih =>
    have hjv : j ≠ v := fun e => hj (e ▸ List.mem_cons_self v rest)
    have hjr : j ∉ rest := fun hr => hj (List.mem_cons_of_mem _ hr)
    simp only [scoreLoop]
    rw [ih _ hjr, getCol_setCol_ne _ _ _ _ hjv]

/-- Counterexample to claim C9 as stated: `generate_index_score` does not
leave the caller's dataframe unchanged — after scoring the single positive
column `[0, 4]` with min-max normalization, the caller's column holds the
rescaled values `[0, 1]`, not the original raw values. -/
theorem C9_counterexample :
    (generate_index_score [("a", [some (0 : ℝ), some 4])] ["a"] []
        .normalize).1 ≠ [("a", [some (0 : ℝ), some 4])] := by
  have hvals : colVals [some (0 : ℝ), some 4] = [0, 4] := rfl
  have hmin : ([0, 4] : List ℝ).min? = some 0 := by
    simp [List.min?, List.foldl, min_eq_left (show (0 : ℝ) ≤ 4 by norm_num)]
  have hmax : ([0, 4] : List ℝ).max? = some 4 := by
    simp [List.max?, List.foldl, max_eq_right (show (0 : ℝ) ≤ 4 by norm_num)]
  have hnorm : normalize [some (0 : ℝ), some 4] = [some 0, some 1] := by
    unfold normalize
    simp only [hvals, hmin, hmax]
    norm_num
  have hframe : (generate_index_score [("a", [some (0 : ℝ), some 4])] ["a"] []
      .normalize).1 = [("a", [some 0, some 1])] := by
    simp [generate_index_score, scoreLoop, setCol, getCol, stdFunc, hnorm]
  rw [hframe]
  intro hcontra
  have : (some (1 : ℝ) : Option ℝ) = some 4 := by
    simpa using hcontra
  norm_num at this

/-- Claim C9 as amended: `reaggregate` is modelled as a pure function of its
inputs (it only builds new tables), but `generate_index_score` overwrites
every listed column of the caller's dataframe with its standardized,
sign-flipped values; only the columns outside `pos_vars ++ neg_vars` are
left unchanged by the call. -/
theorem C9_unlisted_columns_unchanged (df : Frame) (pos neg : List String)
    (m : StdMethod) (j : String) (hj : j ∉ pos ++ neg) :
    getCol ((generate_index_score df pos neg m).1) j = getCol df j :=
  getCol_scoreLoop_not_mem m neg (pos ++ neg) df j hj

/-- Witness for the amended C9: scoring column `"a"` leaves column `"b"`
unchanged. -/
theorem C9_unlisted_columns_unchanged_witness :
    ("b" ∉ (["a"] ++ ([] : List String))) ∧
      getCol ((generate_index_score [("a", [some (1 : ℝ)]), ("b", [some 2])]
          ["a"] [] .standardize).1) "b" =
        getCol [("a", [some (1 : ℝ)]), ("b", [some 2])] "b" :=
  ⟨by simp, C9_unlisted_columns_unchanged _ _ _ _ _ (by simp)⟩

/-! ### Monotonicity of an element's own z-score in its raw value

Varying one element `x` of a series while the other elements stay fixed
changes the mean and the standard deviation too.  With `k` other values of
sum `O`, `u := k * x - O` and `S` the squared deviations of the others from
their own mean, the series' variance (`ddof = 1`) is
`(S + u² / ((k+1) * k)) / k` and `x - mean = u / (k+1)`, so the z-score is
`u / (k+1) / √((S + u² / ((k+1) k)) / k)` — a non-decreasing function of
`u`, hence of `x`, wherever the variance is non-zero. -/

theorem key_mono (c S u₁ u₂ d₁ d₂ : ℝ) (hc : 0 < c) (hS : 0 ≤ S)
    (h1 : c * d₁ ^ 2 = S + u₁ ^ 2) (h2 : c * d₂ ^ 2 = S + u₂ ^ 2)
    (hd1 : 0 < d₁) (hd2 : 0 < d₂) (hu : u₁ ≤ u₂) : u₁ * d₂ ≤ u₂ * d₁ := by
  rcases le_or_lt u₁ 0 with h10 | h10
  · rcases le_or_lt 0 u₂ with h20 | h20
    · have ha : u₁ * d₂ ≤ 0 := mul_nonpos_of_nonpos_of_nonneg h10 hd2.le
      have hb : 0 ≤ u₂ * d₁ := mul_nonneg h20 hd1.le
      linarith
    · have hsq : (-(u₂ * d₁)) ^ 2 ≤ (-(u₁ * d₂)) ^ 2 := by
        have e1 : c * (u₂ * d₁) ^ 2 = u₂ ^ 2 * S + u₂ ^ 2 * u₁ ^ 2 := by
          have : c * (u₂ * d₁) ^ 2 = u₂ ^ 2 * (c * d₁ ^ 2) := by ring
          rw [this, h1]; ring
        have e2 : c * (u₁ * d₂) ^ 2 = u₁ ^ 2 * S + u₁ ^ 2 * u₂ ^ 2 := by
          have : c * (u₁ * d₂) ^ 2 = u₁ ^ 2 * (c * d₂ ^ 2) := by ring
          rw [this, h2]; ring
        have husq : u₂ ^ 2 ≤ u₁ ^ 2 := by nlinarith
        have hmul : u₂ ^ 2 * S ≤ u₁ ^ 2 * S := mul_le_mul_of_nonneg_right husq hS
        nlinarith
      have ha : 0 ≤ -(u₂ * d₁) := by
        have : u₂ * d₁ ≤ 0 := mul_nonpos_of_nonpos_of_nonneg h20.le hd1.le
        linarith
      have hb : 0 ≤ -(u₁ * d₂) := by
        have : u₁ * d₂ ≤ 0 := mul_nonpos_of_nonpos_of_nonneg h10 hd2.le
        linarith
      have := calc -(u₂ * d₁) = Real.sqrt ((-(u₂ * d₁)) ^ 2) :=
            (Real.sqrt_sq ha).symm
        _ ≤ Real.sqrt ((-(u₁ * d₂)) ^ 2) := Real.sqrt_le_sqrt hsq
        _ = -(u₁ * d₂) := Real.sqrt_sq hb
      linarith
  · have h20 : 0 < u₂ := lt_of_lt_of_le h10 hu
    have hsq : (u₁ * d₂) ^ 2 ≤ (u₂ * d₁) ^ 2 := by
      have e1 : c * (u₂ * d₁) ^ 2 = u₂ ^ 2 * S + u₂ ^ 2 * u₁ ^ 2 := by
        have : c * (u₂ * d₁) ^ 2 = u₂ ^ 2 * (c * d₁ ^ 2) := by ring
        rw [this, h1]; ring
      have e2 : c * (u₁ * d₂) ^ 2 = u₁ ^ 2 * S + u₁ ^ 2 * u₂ ^ 2 := by
        have : c * (u₁ * d₂) ^ 2 = u₁ ^ 2 * (c * d₂ ^ 2) := by ring
        rw [this, h2]; ring
      have husq : u₁ ^ 2 ≤ u₂ ^ 2 := by nlinarith
      have hmul : u₁ ^ 2 * S ≤ u₂ ^ 2 * S := mul_le_mul_of_nonneg_right husq hS
      nlinarith
    have ha : 0 ≤ u₁ * d₂ := mul_nonneg h10.le hd2.le
    have hb : 0 ≤ u₂ * d₁ := mul_nonneg h20.le hd1.le
    calc u₁ * d₂ = Real.sqrt ((u₁ * d₂) ^ 2) := (Real.sqrt_sq ha).symm
      _ ≤ Real.sqrt ((u₂ * d₁) ^ 2) := Real.sqrt_le_sqrt hsq
      _ = u₂ * d₁ := Real.sqrt_sq hb

theorem sum_sq_sub (o : List ℝ) (m : ℝ) :
    (o.map fun y => (y - m) ^ 2).sum =
      (o.map fun y => y ^ 2).sum - 2 * m * o.sum + o.length * m ^ 2 := by
  induction o with
  | nil => simp
  | cons y t ih =>
    simp only [List.map_cons, List.sum_cons, List.length_cons, ih]
    push_cast
    ring

theorem var_numerator_identity (o : List ℝ) (x : ℝ) (hk : 1 ≤ o.length) :
    (o.map fun y => (y - (o.sum + x) / ((o.length : ℝ) + 1)) ^ 2).sum
        + (x - (o.sum + x) / ((o.length : ℝ) + 1)) ^ 2 =
      (o.map fun y => (y - o.sum / (o.length : ℝ)) ^ 2).sum
        + ((o.length : ℝ) * x - o.sum) ^ 2
          / (((o.length : ℝ) + 1) * (o.length : ℝ)) := by
  have hk' : (1 : ℝ) ≤ (o.length : ℝ) := by exact_mod_cast hk
  have hkpos : (0 : ℝ) < (o.length : ℝ) := by linarith
  have hnpos : (0 : ℝ) < (o.length : ℝ) + 1 := by linarith
  rw [sum_sq_sub, sum_sq_sub]
  field_simp
  ring

theorem seriesVar_shape (a b : List ℝ) (x : ℝ) (hk : 1 ≤ a.length + b.length) :
    seriesVar (a ++ x :: b) =
      (((a ++ b).map fun y => (y - (a ++ b).sum / ((a ++ b).length : ℝ)) ^ 2).sum
          + (((a ++ b).length : ℝ) * x - (a ++ b).sum) ^ 2
            / ((((a ++ b).length : ℝ) + 1) * ((a ++ b).length : ℝ)))
        / ((a ++ b).length : ℝ) := by
  have hko : 1 ≤ (a ++ b).length := by simpa using hk
  have hmean : seriesMean (a ++ x :: b) =
      ((a ++ b).sum + x) / (((a ++ b).length : ℝ) + 1) := by
    unfold seriesMean
    simp only [List.sum_append, List.sum_cons, List.length_append, List.length_cons]
    push_cast
    ring_nf
  unfold seriesVar
  simp only [hmean]
  have hnum : ((a ++ x :: b).map fun y =>
        (y - ((a ++ b).sum + x) / (((a ++ b).length : ℝ) + 1)) ^ 2).sum =
      ((a ++ b).map fun y =>
          (y - ((a ++ b).sum + x) / (((a ++ b).length : ℝ) + 1)) ^ 2).sum
        + (x - ((a ++ b).sum + x) / (((a ++ b).length : ℝ) + 1)) ^ 2 := by
    simp only [List.map_append, List.sum_append, List.map_cons, List.sum_cons]
    ring
  rw [hnum, var_numerator_identity (a ++ b) x hko]
  have hlen : (((a ++ x :: b).length : ℝ) - 1) = ((a ++ b).length : ℝ) := by
    simp only [List.length_append, List.length_cons]
    push_cast
    ring
  rw [hlen]

theorem seriesVar_shape_nonneg (a b : List ℝ) (x : ℝ)
    (hk : 1 ≤ a.length + b.length) : 0 ≤ seriesVar (a ++ x :: b) := by
  rw [seriesVar_shape a b x hk]
  have hko : 1 ≤ (a ++ b).length := by simpa using hk
  have hkpos : (0 : ℝ) < ((a ++ b).length : ℝ) := by exact_mod_cast hko
  have hS : 0 ≤ ((a ++ b).map fun y =>
      (y - (a ++ b).sum / ((a ++ b).length : ℝ)) ^ 2).sum := by
    refine List.sum_nonneg ?_
    intro t ht
    obtain ⟨y, _, rfl⟩ := List.mem_map.mp ht
    positivity
  have hu : 0 ≤ (((a ++ b).length : ℝ) * x - (a ++ b).sum) ^ 2
      / ((((a ++ b).length : ℝ) + 1) * ((a ++ b).length : ℝ)) := by
    positivity
  positivity

theorem zscore_mono_shape (a b : List ℝ) (x₁ x₂ : ℝ)
    (hk : 1 ≤ a.length + b.length) (hx : x₁ ≤ x₂)
    (hv₁ : seriesVar (a ++ x₁ :: b) ≠ 0)
    (hv₂ : seriesVar (a ++ x₂ :: b) ≠ 0) :
    (x₁ - seriesMean (a ++ x₁ :: b)) / Real.sqrt (seriesVar (a ++ x₁ :: b)) ≤
      (x₂ - seriesMean (a ++ x₂ :: b)) / Real.sqrt (seriesVar (a ++ x₂ :: b)) := by
  have hko : 1 ≤ (a ++ b).length := by simpa using hk
  have hkpos : (0 : ℝ) < ((a ++ b).length : ℝ) := by exact_mod_cast hko
  have hnpos : (0 : ℝ) < ((a ++ b).length : ℝ) + 1 := by linarith
  have hS : 0 ≤ ((a ++ b).map fun y =>
      (y - (a ++ b).sum / ((a ++ b).length : ℝ)) ^ 2).sum := by
    refine List.sum_nonneg ?_
    intro t ht
    obtain ⟨y, _, rfl⟩ := List.mem_map.mp ht
    positivity
  have hv₁pos : 0 < seriesVar (a ++ x₁ :: b) :=
    lt_of_le_of_ne (seriesVar_shape_nonneg a b x₁ hk) (Ne.symm hv₁)
  have hv₂pos : 0 < seriesVar (a ++ x₂ :: b) :=
    lt_of_le_of_ne (seriesVar_shape_nonneg a b x₂ hk) (Ne.symm hv₂)
  have hd₁ : 0 < Real.sqrt (seriesVar (a ++ x₁ :: b)) := Real.sqrt_pos.mpr hv₁pos
  have hd₂ : 0 < Real.sqrt (seriesVar (a ++ x₂ :: b)) := Real.sqrt_pos.mpr hv₂pos
  have hmean : ∀ x : ℝ, seriesMean (a ++ x :: b) =
      ((a ++ b).sum + x) / (((a ++ b).length : ℝ) + 1) := by
    intro x
    unfold seriesMean
    simp only [List.sum_append, List.sum_cons, List.length_append, List.length_cons]
    push_cast
    ring_nf
  have hcsq : ∀ x : ℝ, seriesVar (a ++ x :: b) ≠ 0 →
      ((((a ++ b).length : ℝ) + 1) * ((a ++ b).length : ℝ) ^ 2) *
          Real.sqrt (seriesVar (a ++ x :: b)) ^ 2 =
        ((((a ++ b).length : ℝ) + 1) * ((a ++ b).length : ℝ)) *
            (((a ++ b).map fun y =>
              (y - (a ++ b).sum / ((a ++ b).length : ℝ)) ^ 2).sum)
          + (((a ++ b).length : ℝ) * x - (a ++ b).sum) ^ 2 := by
    intro x hvx
    rw [Real.sq_sqrt (le_of_lt (lt_of_le_of_ne (seriesVar_shape_nonneg a b x hk)
      (Ne.symm hvx))), seriesVar_shape a b x hk]
    set k : ℝ := ((a ++ b).length : ℝ) with hkdef
    set SS : ℝ := ((a ++ b).map fun y => (y - (a ++ b).sum / k) ^ 2).sum with hSSdef
    set u : ℝ := k * x - (a ++ b).sum with hudef
    have hkne : k ≠ 0 := ne_of_gt hkpos
    have hnne : k + 1 ≠ 0 := ne_of_gt hnpos
    field_simp
    ring
  have hkey := key_mono
    ((((a ++ b).length : ℝ) + 1) * ((a ++ b).length : ℝ) ^ 2)
    (((((a ++ b).length : ℝ) + 1) * ((a ++ b).length : ℝ)) *
      (((a ++ b).map fun y =>
        (y - (a ++ b).sum / ((a ++ b).length : ℝ)) ^ 2).sum))
    (((a ++ b).length : ℝ) * x₁ - (a ++ b).sum)
    (((a ++ b).length : ℝ) * x₂ - (a ++ b).sum)
    (Real.sqrt (seriesVar (a ++ x₁ :: b)))
    (Real.sqrt (seriesVar (a ++ x₂ :: b)))
    (by positivity)
    (mul_nonneg (mul_nonneg hnpos.le hkpos.le) hS)
    (hcsq x₁ hv₁) (hcsq x₂ hv₂) hd₁ hd₂
    (by nlinarith)
  rw [div_le_div_iff hd₁ hd₂]
  have hx₁μ : x₁ - seriesMean (a ++ x₁ :: b) =
      ((((a ++ b).length : ℝ)) * x₁ - (a ++ b).sum) /
        (((a ++ b).length : ℝ) + 1) := by
    rw [hmean x₁]
    field_simp
    ring
  have hx₂μ : x₂ - seriesMean (a ++ x₂ :: b) =
      ((((a ++ b).length : ℝ)) * x₂ - (a ++ b).sum) /
        (((a ++ b).length : ℝ) + 1) := by
    rw [hmean x₂]
    field_simp
    ring
  rw [hx₁μ, hx₂μ, div_mul_eq_mul_div, div_mul_eq_mul_div,
    div_le_div_iff hnpos hnpos]
  nlinarith [hkey, hnpos]

theorem colVals_shape (cpre cpost : Col) (x : ℝ) :
    colVals (cpre ++ some x :: cpost) = colVals cpre ++ x :: colVals cpost := by
  simp [colVals, List.reduceOption_append, List.reduceOption_cons_of_some]

theorem lookup_replace_eq (df : Frame) (v : String) (c : Col)
    (hs : (df.lookup v).isSome) :
    (df.map fun p => if p.1 = v then (v, c) else p).lookup v = some c := by
  induction df with
  | nil => simp at hs
  | cons p t ih =>
    rcases p with ⟨a, b⟩
    by_cases ha : a = v
    · subst ha
      simp only [List.map_cons, eq_self_iff_true, if_true]
      simp [List.lookup]
    · simp only [List.map_cons, if_neg ha]
      have hs' : (t.lookup v).isSome := by
        simpa [List.lookup, beq_eq_false_iff_ne.mpr (Ne.symm ha)] using hs
      simp [List.lookup, beq_eq_false_iff_ne.mpr (Ne.symm ha), ih hs']

theorem lookup_append_one_eq (df : Frame) (v : String) (c : Col)
    (hs : ¬ (df.lookup v).isSome) :
    (df ++ [(v, c)]).lookup v = some c := by
  induction df with
  | nil => simp [List.lookup]
  | cons p t ih =>
    rcases p with ⟨a, b⟩
    by_cases ha : a = v
    · subst ha
      simp [List.lookup] at hs
    · have hs' : ¬ (t.lookup v).isSome := by
        simpa [List.lookup, beq_eq_false_iff_ne.mpr (Ne.symm ha)] using hs
      simp [List.lookup, beq_eq_false_iff_ne.mpr (Ne.symm ha), ih hs']

theorem getCol_setCol_eq (df : Frame) (v : String) (c : Col) :
    getCol (setCol df v c) v = c := by
  unfold getCol setCol
  by_cases hs : (df.lookup v).isSome
  · rw [if_pos hs, lookup_replace_eq df v c hs]
    rfl
  · rw [if_neg hs, lookup_append_one_eq df v c hs]
    rfl

theorem scoreLoop_append (m : StdMethod) (negs : List String)
    (df : Frame) (xs ys : List String) :
    scoreLoop m negs df (xs ++ ys) =
      scoreLoop m negs (scoreLoop m negs df xs) ys := by
  induction xs generalizing df with
  | nil => rfl
  | cons v rest ih =>
    simp only [List.cons_append, scoreLoop]
    exact ih _

theorem getCol_scoreLoop_single (m : StdMethod) (negs : List String)
    (vpre vpost : List String) (c : String) (df : Frame)
    (h1 : c ∉ vpre) (h2 : c ∉ vpost) :
    getCol (scoreLoop m negs df (vpre ++ c :: vpost)) c =
      (if c ∈ negs then negCol (stdFunc m (getCol df c))
       else stdFunc m (getCol df c)) := by
  rw [scoreLoop_append]
  simp only [scoreLoop]
  rw [getCol_scoreLoop_not_mem _ _ _ _ _ h2, getCol_setCol_eq,
    getCol_scoreLoop_not_mem _ _ _ _ _ h1]

theorem getCol_scoreLoop_congr (m : StdMethod) (negs : List String)
    (vars : List String) (df₁ df₂ : Frame) (c : String)
    (h : ∀ j, j ≠ c → getCol df₁ j = getCol df₂ j) :
    ∀ j, j ≠ c → getCol (scoreLoop m negs df₁ vars) j =
      getCol (scoreLoop m negs df₂ vars) j := by
  induction vars generalizing df₁ df₂ with
  | nil => exact h
  | cons v rest ih =>
    simp only [scoreLoop]
    refine ih _ _ ?_
    intro j hj
    by_cases hjv : j = v
    · subst hjv
      rw [getCol_setCol_eq, getCol_setCol_eq, h j hj]
    · rw [getCol_setCol_ne _ _ _ _ hjv, getCol_setCol_ne _ _ _ _ hjv]
      exact h j hj

theorem meanCol_shape_le (M N : Col) (w₁ w₂ : ℝ) (hw : w₂ ≤ w₁)
    (s₁ s₂ : ℝ) (h₁ : meanCol (M ++ some w₁ :: N) = some s₁)
    (h₂ : meanCol (M ++ some w₂ :: N) = some s₂) : s₂ ≤ s₁ := by
  rw [meanCol, colVals_shape] at h₁ h₂
  rw [if_neg (by simp)] at h₁ h₂
  have e₁ := Option.some.inj h₁
  have e₂ := Option.some.inj h₂
  have hlen : ((colVals M ++ w₂ :: colVals N).length : ℝ) =
      ((colVals M ++ w₁ :: colVals N).length : ℝ) := by
    simp
  have hpos : (0 : ℝ) < ((colVals M ++ w₁ :: colVals N).length : ℝ) := by
    have : 0 < (colVals M ++ w₁ :: colVals N).length := by simp
    exact_mod_cast this
  rw [← e₁, ← e₂, hlen]
  refine (div_le_div_right hpos).mpr ?_
  simp only [List.sum_append, List.sum_cons]
  linarith

theorem standardize_get_at (cpre cpost : Col) (x : ℝ)
    (hlen2 : 2 ≤ (colVals (cpre ++ some x :: cpost)).length)
    (hv : seriesVar (colVals (cpre ++ some x :: cpost)) ≠ 0) :
    (negCol (standardize (cpre ++ some x :: cpost))).get? cpre.length =
      some (some (-((x - seriesMean (colVals (cpre ++ some x :: cpost))) /
        Real.sqrt (seriesVar (colVals (cpre ++ some x :: cpost)))))) := by
  have hget : (cpre ++ some x :: cpost).get? cpre.length = some (some x) := by
    rw [List.get?_append_right (le_refl _)]
    simp
  have hk : 1 ≤ (colVals cpre).length + (colVals cpost).length := by
    rw [colVals_shape] at hlen2
    simp only [List.length_append, List.length_cons] at hlen2
    omega
  have hvnn : 0 ≤ seriesVar (colVals (cpre ++ some x :: cpost)) := by
    rw [colVals_shape]
    exact seriesVar_shape_nonneg _ _ _ hk
  have hvpos : 0 < seriesVar (colVals (cpre ++ some x :: cpost)) :=
    lt_of_le_of_ne hvnn (Ne.symm hv)
  have hsne : Real.sqrt (seriesVar (colVals (cpre ++ some x :: cpost))) ≠ 0 :=
    ne_of_gt (Real.sqrt_pos.mpr hvpos)
  have hstd : seriesStd (colVals (cpre ++ some x :: cpost)) =
      some (Real.sqrt (seriesVar (colVals (cpre ++ some x :: cpost)))) := by
    unfold seriesStd
    rw [if_neg (by omega)]
  unfold standardize negCol
  rw [List.get?_map, List.get?_map, hget]
  simp only [hstd, Option.map_some, Option.some_bind]
  simp [if_neg hsne]

/-- Claim C6 as amended: with the default z-score standardization
(`std_method = "standardize"`), the composite index score is monotonically
non-increasing in a negative-list column's raw value at the row holding
that value, all other inputs fixed, whenever the column's sample standard
deviation is non-zero at both compared inputs.  (As the counterexample
shows, the claim as stated fails at inputs where the varying column
degenerates to a constant — its standardized entries become missing and
drop out of the row mean — and under min-max normalization.) -/
theorem C6_negative_column_score_antitone
    (df₁ df₂ : Frame) (pos npre npost : List String) (c : String)
    (cpre cpost : Col) (x₁ x₂ : ℝ)
    (hcpos : c ∉ pos) (hnpre : c ∉ npre) (hnpost : c ∉ npost)
    (hcol1 : getCol df₁ c = cpre ++ some x₁ :: cpost)
    (hcol2 : getCol df₂ c = cpre ++ some x₂ :: cpost)
    (hother : ∀ j, j ≠ c → getCol df₁ j = getCol df₂ j)
    (hx : x₁ ≤ x₂)
    (hlen2 : 2 ≤ (colVals (cpre ++ some x₁ :: cpost)).length)
    (hv₁ : seriesVar (colVals (cpre ++ some x₁ :: cpost)) ≠ 0)
    (hv₂ : seriesVar (colVals (cpre ++ some x₂ :: cpost)) ≠ 0)
    (s₁ s₂ : ℝ)
    (h₁ : (generate_index_score df₁ pos (npre ++ c :: npost)
        .standardize).2.get? cpre.length = some (some s₁))
    (h₂ : (generate_index_score df₂ pos (npre ++ c :: npost)
        .standardize).2.get? cpre.length = some (some s₂)) :
    s₂ ≤ s₁ := by
  have hlen2' : 2 ≤ (colVals (cpre ++ some x₂ :: cpost)).length := by
    rw [colVals_shape] at hlen2 ⊢
    simpa using hlen2
  have hvars : pos ++ (npre ++ c :: npost) = (pos ++ npre) ++ c :: npost := by
    simp [List.append_assoc]
  have hcprepost : c ∉ pos ++ npre := by
    intro h
    rcases List.mem_append.mp h with h | h
    · exact hcpos h
    · exact hnpre h
  have hcnegs : c ∈ npre ++ c :: npost := by simp
  simp only [generate_index_score] at h₁ h₂
  set dfA := scoreLoop .standardize (npre ++ c :: npost) df₁
    (pos ++ (npre ++ c :: npost)) with hdfA
  set dfB := scoreLoop .standardize (npre ++ c :: npost) df₂
    (pos ++ (npre ++ c :: npost)) with hdfB
  set z₁ := (x₁ - seriesMean (colVals (cpre ++ some x₁ :: cpost))) /
      Real.sqrt (seriesVar (colVals (cpre ++ some x₁ :: cpost))) with hz₁def
  set z₂ := (x₂ - seriesMean (colVals (cpre ++ some x₂ :: cpost))) /
      Real.sqrt (seriesVar (colVals (cpre ++ some x₂ :: cpost))) with hz₂def
  have hgc₁ : getCol dfA c = negCol (standardize (cpre ++ some x₁ :: cpost)) := by
    rw [hdfA, hvars, getCol_scoreLoop_single _ _ _ _ _ _ hcprepost hnpost,
      if_pos hcnegs]
    simp only [stdFunc]
    rw [hcol1]
  have hgc₂ : getCol dfB c = negCol (standardize (cpre ++ some x₂ :: cpost)) := by
    rw [hdfB, hvars, getCol_scoreLoop_single _ _ _ _ _ _ hcprepost hnpost,
      if_pos hcnegs]
    simp only [stdFunc]
    rw [hcol2]
  have hrv₁ : rowVal dfA c cpre.length = some (-z₁) := by
    unfold rowVal
    rw [hgc₁, standardize_get_at _ _ _ hlen2 hv₁]
    rfl
  have hrv₂ : rowVal dfB c cpre.length = some (-z₂) := by
    unfold rowVal
    rw [hgc₂, standardize_get_at _ _ _ hlen2' hv₂]
    rfl
  rw [List.get?_map] at h₁ h₂
  have hrm₁ : rowMean dfA (pos ++ (npre ++ c :: npost)) cpre.length = some s₁ := by
    by_cases hlt : cpre.length < nRows dfA
    · rw [List.get?_range hlt] at h₁
      simpa using h₁
    · have hnone : (List.range (nRows dfA)).get? cpre.length = none :=
        List.get?_eq_none.mpr (by simpa [List.length_range] using not_lt.mp hlt)
      rw [hnone] at h₁
      simp at h₁
  have hrm₂ : rowMean dfB (pos ++ (npre ++ c :: npost)) cpre.length = some s₂ := by
    by_cases hlt : cpre.length < nRows dfB
    · rw [List.get?_range hlt] at h₂
      simpa using h₂
    · have hnone : (List.range (nRows dfB)).get? cpre.length = none :=
        List.get?_eq_none.mpr (by simpa [List.length_range] using not_lt.mp hlt)
      rw [hnone] at h₂
      simp at h₂
  have hcongr := getCol_scoreLoop_congr .standardize (npre ++ c :: npost)
    (pos ++ (npre ++ c :: npost)) df₁ df₂ c hother
  have hrv_ne : ∀ j, j ≠ c →
      rowVal dfB j cpre.length = rowVal dfA j cpre.length := by
    intro j hj
    unfold rowVal
    rw [hdfA, hdfB, hcongr j hj]
  have hdec₁ : (pos ++ (npre ++ c :: npost)).map
        (fun v => rowVal dfA v cpre.length) =
      ((pos ++ npre).map fun v => rowVal dfA v cpre.length) ++
        some (-z₁) :: (npost.map fun v => rowVal dfA v cpre.length) := by
    rw [hvars, List.map_append, List.map_cons, hrv₁]
  have hdec₂ : (pos ++ (npre ++ c :: npost)).map
        (fun v => rowVal dfB v cpre.length) =
      ((pos ++ npre).map fun v => rowVal dfA v cpre.length) ++
        some (-z₂) :: (npost.map fun v => rowVal dfA v cpre.length) := by
    rw [hvars, List.map_append, List.map_cons, hrv₂]
    congr 1
    · exact List.map_congr_left fun j hj =>
        hrv_ne j (fun e => hcprepost (e ▸ hj))
    · congr 1
      exact List.map_congr_left fun j hj =>
        hrv_ne j (fun e => hnpost (e ▸ hj))
  have hzle : z₁ ≤ z₂ := by
    rw [hz₁def, hz₂def]
    have hk : 1 ≤ (colVals cpre).length + (colVals cpost).length := by
      rw [colVals_shape] at hlen2
      simp only [List.length_append, List.length_cons] at hlen2
      omega
    have hv₁' : seriesVar (colVals cpre ++ x₁ :: colVals cpost) ≠ 0 := by
      rw [colVals_shape] at hv₁
      exact hv₁
    have hv₂' : seriesVar (colVals cpre ++ x₂ :: colVals cpost) ≠ 0 := by
      rw [colVals_shape] at hv₂
      exact hv₂
    rw [colVals_shape, colVals_shape]
    exact zscore_mono_shape (colVals cpre) (colVals cpost) x₁ x₂ hk hx hv₁' hv₂'
  rw [rowMean, hdec₁] at hrm₁
  rw [rowMean, hdec₂] at hrm₂
  exact meanCol_shape_le _ _ (-z₁) (-z₂) (neg_le_neg hzle) s₁ s₂ hrm₁ hrm₂

theorem gis_two_col_eval_snd (pcol qcol P2 Q2 : Col)
    (hP : standardize pcol = P2)
    (hQ : negCol (standardize qcol) = Q2) :
    (generate_index_score [("p", pcol), ("q", qcol)] ["p"] ["q"]
        .standardize).2 =
      (List.range P2.length).map fun r =>
        meanCol [(P2.get? r).join, (Q2.get? r).join] := by
  have hloop : scoreLoop .standardize ["q"] [("p", pcol), ("q", qcol)]
      (["p"] ++ ["q"]) = [("p", P2), ("q", Q2)] := by
    simp [scoreLoop, setCol, getCol, stdFunc, List.lookup, hP, hQ]
  simp only [generate_index_score, hloop]
  show (List.range (nRows [("p", P2), ("q", Q2)])).map _ = _
  have hn : nRows [("p", P2), ("q", Q2)] = P2.length := rfl
  rw [hn]
  refine List.map_congr_left fun r _ => ?_
  simp [rowMean, rowVal, getCol, List.lookup]

theorem mean_5_4 : seriesMean [(5 : ℝ), 4] = 9 / 2 := by
  norm_num [seriesMean]

theorem var_5_4 : seriesVar [(5 : ℝ), 4] = 1 / 2 := by
  norm_num [seriesVar, mean_5_4]

theorem std_5_4 : seriesStd [(5 : ℝ), 4] = some (Real.sqrt (1 / 2)) := by
  unfold seriesStd
  rw [if_neg (by norm_num), var_5_4]

theorem sqrt_half_pos : (0 : ℝ) < Real.sqrt (1 / 2) :=
  Real.sqrt_pos.mpr (by norm_num)

theorem mean_1_1_1_10 : seriesMean [(1 : ℝ), 1, 1, 10] = 13 / 4 := by
  norm_num [seriesMean]

theorem var_1_1_1_10 : seriesVar [(1 : ℝ), 1, 1, 10] = 81 / 4 := by
  norm_num [seriesVar, mean_1_1_1_10]

theorem std_1_1_1_10 : seriesStd [(1 : ℝ), 1, 1, 10] = some (9 / 2) := by
  unfold seriesStd
  rw [if_neg (by norm_num), var_1_1_1_10,
    show (81 : ℝ) / 4 = (9 / 2) ^ 2 by norm_num, Real.sqrt_sq (by norm_num)]

theorem standardize_p_col :
    standardize [some (1 : ℝ), some 1, some 1, some 10] =
      [some (-(1 / 2)), some (-(1 / 2)), some (-(1 / 2)), some (3 / 2)] := by
  unfold standardize
  simp only [show colVals [some (1 : ℝ), some 1, some 1, some 10] = [1, 1, 1, 10]
    from rfl, std_1_1_1_10, mean_1_1_1_10]
  norm_num

theorem standardize_q_var :
    standardize [none, none, some (5 : ℝ), some 4] =
      [none, none, some (1 / 2 / Real.sqrt (1 / 2)),
        some (-(1 / 2) / Real.sqrt (1 / 2))] := by
  unfold standardize
  simp only [show colVals [none, none, some (5 : ℝ), some 4] = [5, 4] from rfl,
    std_5_4, mean_5_4]
  have hs0 : Real.sqrt (1 / 2) ≠ 0 := ne_of_gt sqrt_half_pos
  simp only [Option.some_bind, Option.none_bind, if_neg hs0]
  norm_num

theorem standardize_q_const :
    standardize [none, none, some (5 : ℝ), some 5] =
      [none, none, none, none] := by
  have h := standardize_constant (l := [none, none, some (5 : ℝ), some 5])
    (v := 5) (by simp [colVals]) (by simp [colVals])
  simpa using h

/-- Counterexample to claim C6 as stated: under the default z-score
standardization, raising the negative column `"q"`'s raw value at row 3
from `4` to `5` (its other non-missing entry being `5`) *raises* the
composite score of row 3 from `(3/2 + √(1/2))/2 ≈ 1.10` to `3/2`: at `5`
the column becomes constant, its standardized entries degenerate to
missing values, and the row mean falls back on the positive column alone.
The score is not monotonically decreasing in the column's raw value. -/
theorem C6_counterexample :
    (4 : ℝ) < 5 ∧
      (generate_index_score
          [("p", [some 1, some 1, some 1, some 10]),
            ("q", [none, none, some 5, some 4])] ["p"] ["q"]
          .standardize).2.get? 3 =
        some (some ((3 / 2 + 1 / 2 / Real.sqrt (1 / 2)) / 2)) ∧
      (generate_index_score
          [("p", [some 1, some 1, some 1, some 10]),
            ("q", [none, none, some 5, some 5])] ["p"] ["q"]
          .standardize).2.get? 3 =
        some (some (3 / 2)) ∧
      (3 / 2 + 1 / 2 / Real.sqrt (1 / 2)) / 2 < 3 / 2 := by
  have hW : (1 : ℝ) / 2 / Real.sqrt (1 / 2) = Real.sqrt (1 / 2) := by
    rw [eq_comm, eq_div_iff (ne_of_gt sqrt_half_pos)]
    exact Real.mul_self_sqrt (by norm_num)
  have hWlt : (1 : ℝ) / 2 / Real.sqrt (1 / 2) < 1 := by
    rw [hW]
    calc Real.sqrt (1 / 2) < Real.sqrt 1 := by
          apply Real.sqrt_lt_sqrt <;> norm_num
      _ = 1 := Real.sqrt_one
  refine ⟨by norm_num, ?_, ?_, by linarith⟩
  · rw [gis_two_col_eval_snd [some 1, some 1, some 1, some 10]
      [none, none, some 5, some 4] _ _ standardize_p_col rfl]
    rw [show ([some (-(1 / 2)), some (-(1 / 2)), some (-(1 / 2)),
      some (3 / 2)] : Col).length = 4 from rfl]
    rw [List.get?_map]
    have hg : (List.range 4).get? 3 = some 3 := List.get?_range (by norm_num)
    rw [hg]
    simp only [Option.map_some']
    congr 1
    rw [standardize_q_var]
    simp [negCol, meanCol, colVals]
  · rw [gis_two_col_eval_snd [some 1, some 1, some 1, some 10]
      [none, none, some 5, some 5] _ _ standardize_p_col rfl]
    rw [show ([some (-(1 / 2)), some (-(1 / 2)), some (-(1 / 2)),
      some (3 / 2)] : Col).length = 4 from rfl]
    rw [List.get?_map]
    have hg : (List.range 4).get? 3 = some 3 := List.get?_range (by norm_num)
    rw [hg]
    simp only [Option.map_some']
    congr 1
    rw [standardize_q_const]
    simp [negCol, meanCol, colVals]

theorem mean_5_5_5_4 : seriesMean [(5 : ℝ), 5, 5, 4] = 19 / 4 := by
  norm_num [seriesMean]

theorem var_5_5_5_4 : seriesVar [(5 : ℝ), 5, 5, 4] = 1 / 4 := by
  norm_num [seriesVar, mean_5_5_5_4]

theorem std_5_5_5_4 : seriesStd [(5 : ℝ), 5, 5, 4] = some (1 / 2) := by
  unfold seriesStd
  rw [if_neg (by norm_num), var_5_5_5_4,
    show (1 : ℝ) / 4 = (1 / 2) ^ 2 by norm_num, Real.sqrt_sq (by norm_num)]

theorem mean_5_5_5_14 : seriesMean [(5 : ℝ), 5, 5, 14] = 29 / 4 := by
  norm_num [seriesMean]

theorem var_5_5_5_14 : seriesVar [(5 : ℝ), 5, 5, 14] = 81 / 4 := by
  norm_num [seriesVar, mean_5_5_5_14]

theorem std_5_5_5_14 : seriesStd [(5 : ℝ), 5, 5, 14] = some (9 / 2) := by
  unfold seriesStd
  rw [if_neg (by norm_num), var_5_5_5_14,
    show (81 : ℝ) / 4 = (9 / 2) ^ 2 by norm_num, Real.sqrt_sq (by norm_num)]

theorem standardize_q_w1 :
    standardize [some (5 : ℝ), some 5, some 5, some 4] =
      [some (1 / 2), some (1 / 2), some (1 / 2), some (-(3 / 2))] := by
  unfold standardize
  simp only [show colVals [some (5 : ℝ), some 5, some 5, some 4] = [5, 5, 5, 4]
    from rfl, std_5_5_5_4, mean_5_5_5_4]
  norm_num

theorem standardize_q_w2 :
    standardize [some (5 : ℝ), some 5, some 5, some 14] =
      [some (-(1 / 2)), some (-(1 / 2)), some (-(1 / 2)), some (3 / 2)] := by
  unfold standardize
  simp only [show colVals [some (5 : ℝ), some 5, some 5, some 14] = [5, 5, 5, 14]
    from rfl, std_5_5_5_14, mean_5_5_5_14]
  norm_num

/-- Witness for the amended C6: raising the negative column `"q"`'s value at
row 3 from 4 to 14 (the column staying non-constant) lowers row 3's score
from 3/2 to 0. -/
theorem C6_negative_column_score_antitone_witness :
    (generate_index_score
        [("p", [some 1, some 1, some 1, some 10]),
          ("q", [some 5, some 5, some 5, some 4])] ["p"] ["q"]
        .standardize).2.get? 3 = some (some (3 / 2)) ∧
      (generate_index_score
          [("p", [some 1, some 1, some 1, some 10]),
            ("q", [some 5, some 5, some 5, some 14])] ["p"] ["q"]
          .standardize).2.get? 3 = some (some 0) ∧
      (0 : ℝ) ≤ 3 / 2 := by
  have hs₁ : (generate_index_score
      [("p", [some 1, some 1, some 1, some 10]),
        ("q", [some 5, some 5, some 5, some 4])] ["p"] ["q"]
      .standardize).2.get? 3 = some (some (3 / 2)) := by
    rw [gis_two_col_eval_snd [some 1, some 1, some 1, some 10]
      [some 5, some 5, some 5, some 4] _ _ standardize_p_col rfl]
    rw [show ([some (-(1 / 2)), some (-(1 / 2)), some (-(1 / 2)),
      some (3 / 2)] : Col).length = 4 from rfl]
    rw [List.get?_map]
    have hg : (List.range 4).get? 3 = some 3 := List.get?_range (by norm_num)
    rw [hg]
    simp only [Option.map_some']
    congr 1
    rw [standardize_q_w1]
    simp [negCol, meanCol, colVals]
  have hs₂ : (generate_index_score
      [("p", [some 1, some 1, some 1, some 10]),
        ("q", [some 5, some 5, some 5, some 14])] ["p"] ["q"]
      .standardize).2.get? 3 = some (some 0) := by
    rw [gis_two_col_eval_snd [some 1, some 1, some 1, some 10]
      [some 5, some 5, some 5, some 14] _ _ standardize_p_col rfl]
    rw [show ([some (-(1 / 2)), some (-(1 / 2)), some (-(1 / 2)),
      some (3 / 2)] : Col).length = 4 from rfl]
    rw [List.get?_map]
    have hg : (List.range 4).get? 3 = some 3 := List.get?_range (by norm_num)
    rw [hg]
    simp only [Option.map_some']
    congr 1
    rw [standardize_q_w2]
    simp [negCol, meanCol, colVals]
  refine ⟨hs₁, hs₂, ?_⟩
  exact C6_negative_column_score_antitone
    [("p", [some 1, some 1, some 1, some 10]),
      ("q", [some 5, some 5, some 5, some 4])]
    [("p", [some 1, some 1, some 1, some 10]),
      ("q", [some 5, some 5, some 5, some 14])]
    ["p"] [] [] "q" [some 5, some 5, some 5] [] 4 14
    (by simp) (by simp) (by simp)
    (by simp [getCol, List.lookup])
    (by simp [getCol, List.lookup])
    (by
      intro j hj
      simp [getCol, List.lookup, beq_eq_false_iff_ne.mpr hj])
    (by norm_num)
    (by simp [colVals])
    (by rw [show colVals ([some (5 : ℝ), some 5, some 5] ++ some 4 :: []) =
        [5, 5, 5, 4] from rfl, var_5_5_5_4]; norm_num)
    (by rw [show colVals ([some (5 : ℝ), some 5, some 5] ++ some 14 :: []) =
        [5, 5, 5, 14] from rfl, var_5_5_5_14]; norm_num)
    (3 / 2) 0 hs₁ hs₂

end Housd
